import Mathlib

/-!
Verification of the slice-normalization / slice-composition / slice-serialization
algebra of `src/pydap/lib.py` (`fix_slice`, `combine_slices`, `hyperslab`).

The embedding mirrors the Python source:

* a Python `slice(start, stop, step)` object is `PySlice` (each field an
  `Option Int`, `none` standing for Python `None`);
* an element of an index tuple handled by `fix_slice`'s second loop and by
  `combine_slices` is either an `int` or a `slice` (`SI`);
* a raw index-expression element handled by `fix_slice`'s first loop may also
  be the `Ellipsis` marker (`Raw`);
* Python's truthiness-based defaulting `x or d` is translated literally:
  `x or 0` on an optional integer equals `Option.getD 0` (since `0 or 0 = 0`),
  while `x or 1` maps both `None` and `0` to `1` (`stepOr1`).
-/

/-- A Python `slice(start, stop, step)` value; `none` is Python `None`. -/
structure PySlice where
  start : Option Int
  stop : Option Int
  step : Option Int
deriving DecidableEq, Repr

/-- A slice-or-integer, the element type of the tuples handled by
`fix_slice`'s resolution loop and by `combine_slices`. -/
inductive SI where
  | int (i : Int)
  | slice (s : PySlice)
deriving DecidableEq, Repr

/-- A raw index-expression element, as accepted by `fix_slice`:
an integer, a slice, or the `Ellipsis` marker. -/
inductive Raw where
  | int (i : Int)
  | slice (s : PySlice)
  | ellipsis
deriving DecidableEq, Repr

/-- Python's `x or 1` on an optional integer: `None` and `0` are falsy,
so both default to `1`. This is how `lib.py` reads step fields. -/
def stepOr1 : Option Int → Int
  | none => 1
  | some v => if v = 0 then 1 else v

/-- The Python value `slice(None)`, i.e. `slice(None, None, None)`. -/
def fullSlice : PySlice := ⟨none, none, none⟩

/-- The value `slice(None)` viewed as an `SI`, the `izip_longest` fill value. -/
def fullSI : SI := .slice fullSlice

/-- The `sys.maxint` of the CPython 2 runtime on a 64-bit platform. -/
def sys_maxint : Int := 2 ^ 63 - 1

/-! ## `fix_slice` -/

/-- One pass of `fix_slice`'s first loop: expand each `Ellipsis` into
`(expand + 1)` copies of `slice(None)` (a negative count yields an empty
tuple, as in Python), resetting `expand` to `0` afterwards. -/
def expandE : List Raw → Int → List SI
  | [], _ => []
  | .ellipsis :: rest, ex => List.replicate (ex + 1).toNat fullSI ++ expandE rest 0
  | .int i :: rest, ex => .int i :: expandE rest ex
  | .slice s :: rest, ex => .slice s :: expandE rest ex

/-- Whether a raw index expression contains an `Ellipsis` marker. -/
def hasEll (l : List Raw) : Bool :=
  l.any fun x => match x with | .ellipsis => true | _ => false

/-- Number of `Ellipsis` markers in a raw index expression. -/
def countEll (l : List Raw) : Nat :=
  l.countP fun x => match x with | .ellipsis => true | _ => false

/-- The first phase of `fix_slice`: ellipsis expansion followed by the
right padding `+ (slice(None),) * expand`, where `expand` is `0` whenever an
ellipsis was encountered and `len(shape) - len(slice_)` otherwise. -/
def phase1 (e : List Raw) (shape : List Nat) : List SI :=
  let ex : Int := (shape.length : Int) - e.length
  expandE e ex ++ List.replicate (if hasEll e then 0 else ex.toNat) fullSI

/-- The bound resolution of `fix_slice`: a present negative `start`/`stop` has the
axis length added; an absent bound stays `None`. -/
def fixBound (n : Nat) : Option Int → Option Int
  | none => none
  | some v => some (if v < 0 then v + n else v)

/-- The body of `fix_slice`'s second loop for one `(selection, axis length)`
pair: negative integers are shifted by the axis length; slices get their
bounds resolved and their step defaulted through `s.step or 1`. -/
def fixOne (s : SI) (n : Nat) : SI :=
  match s with
  | .int i => .int (if i < 0 then i + n else i)
  | .slice sl => .slice ⟨fixBound n sl.start, fixBound n sl.stop, some (stepOr1 sl.step)⟩

/-- The function `fix_slice(slice_, shape)` from `lib.py`: expand the ellipsis, pad to the
shape's length, then resolve each selection against its axis length.
`zip` truncates to the shorter of the two sequences, exactly as in Python. -/
def fix_slice (e : List Raw) (shape : List Nat) : List SI :=
  ((phase1 e shape).zip shape).map fun p => fixOne p.1 p.2

/-! ## `combine_slices` -/

/-- The per-pair computation of `combine_slices`. An integer `i` is first replaced
by `slice(i, i+1)` (whose step is `None`); then
`start = (a.start or 0) + (b.start or 0)`, `step = (a.step or 1) * (b.step or 1)`,
and the four-way `stop` rule of the source. -/
def combineOne (e1 e2 : SI) : PySlice :=
  let a : PySlice := match e1 with
    | .int i => ⟨some i, some (i + 1), none⟩
    | .slice s => s
  let b : PySlice := match e2 with
    | .int i => ⟨some i, some (i + 1), none⟩
    | .slice s => s
  { start := some (a.start.getD 0 + b.start.getD 0)
    stop :=
      match a.stop, b.stop with
      | none, none => none
      | none, some jb => some (a.start.getD 0 + jb)
      | some ja, none => some ja
      | some ja, some jb => some (min ja (a.start.getD 0 + jb))
    step := some (stepOr1 a.step * stepOr1 b.step) }

/-- The function `combine_slices(slice1, slice2)` from `lib.py`: pair the two tuples with
`itertools.izip_longest(…, fillvalue=slice(None))` and combine each pair;
every output entry is a slice object. -/
def combine_slices : List SI → List SI → List SI
  | [], ys => ys.map fun y => .slice (combineOne fullSI y)
  | x :: xs, ys =>
    match ys with
    | [] => .slice (combineOne x fullSI) :: combine_slices xs []
    | y :: ys => .slice (combineOne x y) :: combine_slices xs ys

/-! ## `hyperslab` -/

/-- The trailing `while slice_ and slice_[-1] == slice(None): slice_.pop(-1)`
loop: drop trailing elements equal to `slice(None, None, None)`. -/
def dropTrailingFull (l : List SI) : List SI :=
  (l.reverse.dropWhile fun x => x == fullSI).reverse

/-- Python's `s.stop or sys.maxint`: both `None` and `0` are falsy. -/
def stopOrMax : Option Int → Int
  | none => sys_maxint
  | some v => if v = 0 then sys_maxint else v

/-- Rendering of one kept selection,
`'[%s:%s:%s]' % (s.start or 0, s.step or 1, (s.stop or sys.maxint) - 1)`.
An integer selection has no `.start` attribute, so the generator raises
`AttributeError`; that failure is modelled by `none`. -/
def renderSel : SI → Option String
  | .int _ => none
  | .slice s =>
    some ("[" ++ toString (s.start.getD 0) ++ ":" ++ toString (stepOr1 s.step) ++ ":"
      ++ toString (stopOrMax s.stop - 1) ++ "]")

/-- Python's `''.join(...)` over the per-selection renderings; the first
`AttributeError` aborts the whole serialization (`none`). -/
def renderAll : List SI → Option String
  | [] => some ""
  | x :: xs =>
    match renderSel x, renderAll xs with
    | some s, some rest => some (s ++ rest)
    | _, _ => none

/-- The function `hyperslab(slice_)` from `lib.py`: drop trailing `slice(None)` selections,
then concatenate the bracketed renderings. -/
def hyperslab (l : List SI) : Option String :=
  renderAll (dropTrailingFull l)

/-! ## Python list-slicing semantics (specification side)

`applySlice` gives the meaning of applying one slice to a Python list, for
slices in the normalized domain (non-negative or absent bounds, positive
step): the selected elements are `xs[start + t*step]` for `t = 0, 1, 2, …`
while the index stays below `stop` (when present) and below `len(xs)`.
Iterating `t` over `range (len xs)` is sufficient because `step ≥ 1` makes
the index at least `t`. -/

/-- Whether index `i` is below the optional `stop` bound. -/
def inStop : Option Int → Int → Bool
  | none, _ => true
  | some j, i => i < j

/-- Apply a single slice to a list: Python `xs[start:stop:step]` semantics for
non-negative (or absent) bounds and positive step. -/
def applySlice (s : PySlice) (xs : List α) : List α :=
  (List.range xs.length).filterMap fun (t : Nat) =>
    if 0 ≤ s.start.getD 0 + (t : Int) * stepOr1 s.step ∧
        inStop s.stop (s.start.getD 0 + (t : Int) * stepOr1 s.step) = true then
      xs[(s.start.getD 0 + (t : Int) * stepOr1 s.step).toNat]?
    else none

/-- Multidimensional arrays as nested lists: the model on which index
expressions act. -/
inductive NDA (α : Type u) where
  | scalar (v : α)
  | dim (xs : List (NDA α))

/-- Membership in a slice application comes from membership in the input. -/
theorem mem_applySlice {s : PySlice} {xs : List α} {y : α}
    (h : y ∈ applySlice s xs) : y ∈ xs := by
  unfold applySlice at h
  rcases List.mem_filterMap.1 h with ⟨t, -, ht⟩
  split at ht
  · exact List.getElem?_mem ht
  · exact Option.noConfusion ht

/-- Apply a tuple of slices to an array, axis by axis: `A[(s, *rest)]` slices
axis 0 and applies the rest of the tuple to each selected sub-array. -/
def applyAll : List PySlice → NDA α → NDA α
  | [], a => a
  | _ :: _, .scalar v => .scalar v
  | s :: rest, .dim xs => .dim ((applySlice s xs).attach.map fun x => applyAll rest x.1)
termination_by _ a => sizeOf a
decreasing_by
  have hx := List.sizeOf_lt_of_mem (mem_applySlice x.2)
  simp only [NDA.dim.sizeOf_spec]
  omega

/-- Normalized-slice predicate: bounds non-negative when present, positive
effective step. -/
def normSlice (s : PySlice) : Bool :=
  (match s.start with | none => true | some v => 0 ≤ v) &&
  (match s.stop with | none => true | some v => 0 ≤ v) &&
  decide (0 < stepOr1 s.step)

/-- Per-axis composition as performed by `combine_slices` on two slices. -/
def combineAx (a b : PySlice) : PySlice := combineOne (.slice a) (.slice b)

/-- Extract the slice from a `combine_slices` output entry. -/
def outSlice : SI → PySlice
  | .slice s => s
  | .int i => ⟨some i, some (i + 1), none⟩

theorem applyAll_nil (a : NDA α) : applyAll [] a = a := by
  unfold applyAll; rfl

theorem applyAll_scalar (l : List PySlice) (v : α) : applyAll l (NDA.scalar v) = NDA.scalar v := by
  cases l with
  | nil => exact applyAll_nil _
  | cons s rest => unfold applyAll; rfl

theorem applyAll_cons_dim (s : PySlice) (rest : List PySlice) (xs : List (NDA α)) :
    applyAll (s :: rest) (NDA.dim xs) = NDA.dim ((applySlice s xs).map (applyAll rest)) := by
  unfold applyAll
  exact congrArg NDA.dim (List.attach_map_coe _ _)

/-! ## Claim C4: the per-axis composition rule -/

/-- An integer pick `i` treated as the range `Range(i, i+1, 1)`, as the spec
words the reduction of `Index` to a unit range. -/
def toRange : SI → PySlice
  | .int i => ⟨some i, some (i + 1), some 1⟩
  | .slice s => s

/-- The per-axis combination rule exactly as the spec states it:
`step = step(a)*step(b)` (step defaulting to 1 when absent),
`start = (start(a) or 0) + (start(b) or 0)`, and the four-case `stop` rule. -/
def specCombineAxis (x y : SI) : PySlice :=
  let a := toRange x
  let b := toRange y
  { start := some (a.start.getD 0 + b.start.getD 0)
    stop :=
      match a.stop, b.stop with
      | none, none => none
      | none, some jb => some (a.start.getD 0 + jb)
      | some ja, none => some ja
      | some ja, some jb => some (min ja (a.start.getD 0 + jb))
    step := some (a.step.getD 1 * b.step.getD 1) }

theorem stepOr1_eq_getD {o : Option Int} (h : o ≠ some 0) : stepOr1 o = o.getD 1 := by
  cases o with
  | none => rfl
  | some v =>
    have hv : v ≠ 0 := fun hv => h (by rw [hv])
    simp [stepOr1, hv]

theorem stepOr1_ne_zero (o : Option Int) : stepOr1 o ≠ 0 := by
  cases o with
  | none => simp [stepOr1]
  | some v =>
    by_cases hv : v = 0 <;> simp [stepOr1, hv]

/-- C4: for each paired axis of `combine_slices` (integer picks treated as
unit ranges), the output follows the spec's `step`/`start`/four-case-`stop`
rule, provided no explicit step is zero (a zero step is a malformed input in
the spec's domain); and `combine([Range(2,None,1)], [Range(0,3,1)])` yields
`Range(2,5,1)`. -/
theorem C4_per_axis_rule :
    (∀ x y : SI, (toRange x).step ≠ some 0 → (toRange y).step ≠ some 0 →
        combineOne x y = specCombineAxis x y) ∧
    combine_slices [SI.slice ⟨some 2, none, some 1⟩] [SI.slice ⟨some 0, some 3, some 1⟩]
      = [SI.slice ⟨some 2, some 5, some 1⟩] := by
  refine ⟨fun x y hx hy => ?_, by decide⟩
  cases x <;> cases y <;>
    simp only [toRange] at hx hy <;>
    simp only [combineOne, specCombineAxis, toRange, stepOr1_eq_getD hx, stepOr1_eq_getD hy] <;>
    simp [stepOr1]

/-- Witness for C4 at the spec's own example. -/
theorem C4_per_axis_rule_witness :
    combineOne (SI.slice ⟨some 2, none, some 1⟩) (SI.slice ⟨some 0, some 3, some 1⟩)
      = specCombineAxis (SI.slice ⟨some 2, none, some 1⟩) (SI.slice ⟨some 0, some 3, some 1⟩) :=
  C4_per_axis_rule.1 _ _ (by decide) (by decide)

/-! ## Claim C9: `combine_slices` padding, length, and uniform range output -/

theorem combine_slices_length (s1 s2 : List SI) :
    (combine_slices s1 s2).length = max s1.length s2.length := by
  induction s1 generalizing s2 with
  | nil => simp [combine_slices]
  | cons x xs ih =>
    cases s2 with
    | nil =>
      have := ih []
      simp only [combine_slices, List.length_cons, this]
      simp
    | cons y ys =>
      have := ih ys
      simp only [combine_slices, List.length_cons, this]
      omega

theorem combine_slices_getElem? (s1 s2 : List SI) (i : Nat) :
    (combine_slices s1 s2)[i]? =
      match s1[i]?, s2[i]? with
      | none, none => none
      | o1, o2 => some (SI.slice (combineOne (o1.getD fullSI) (o2.getD fullSI))) := by
  induction s1 generalizing s2 i with
  | nil =>
    simp only [combine_slices, List.getElem?_map, List.getElem?_nil]
    cases h : s2[i]? <;> simp
  | cons x xs ih =>
    cases s2 with
    | nil =>
      cases i with
      | zero => simp [combine_slices]
      | succ j =>
        simp only [combine_slices, List.getElem?_cons_succ, List.getElem?_nil]
        have := ih [] j
        simpa using this
    | cons y ys =>
      cases i with
      | zero => simp [combine_slices]
      | succ j =>
        simp only [combine_slices, List.getElem?_cons_succ]
        exact ih ys j

/-- C9: `combine_slices` pairs the two sequences position-wise, padding the
shorter one with full-range selections on the right (the output has one entry
per position up to the longer length), and every output entry is a slice
(`Range`), even when both inputs were integer picks. -/
theorem C9_padding_uniform_range :
    (∀ s1 s2 : List SI, (combine_slices s1 s2).length = max s1.length s2.length) ∧
    (∀ (s1 s2 : List SI) (i : Nat),
        (combine_slices s1 s2)[i]? =
          match s1[i]?, s2[i]? with
          | none, none => none
          | o1, o2 => some (SI.slice (combineOne (o1.getD fullSI) (o2.getD fullSI)))) ∧
    (∀ s1 s2 : List SI, ∀ x ∈ combine_slices s1 s2, ∃ ps, x = SI.slice ps) ∧
    combine_slices [SI.int 2] [SI.int 0] = [SI.slice ⟨some 2, some 3, some 1⟩] := by
  refine ⟨combine_slices_length, combine_slices_getElem?, fun s1 s2 x hx => ?_, by decide⟩
  rcases List.mem_iff_getElem?.1 hx with ⟨i, hi⟩
  rw [combine_slices_getElem? s1 s2 i] at hi
  revert hi
  cases s1[i]? <;> cases s2[i]? <;> intro hi <;> first
    | exact Option.noConfusion hi
    | exact ⟨_, (Option.some.inj hi).symm⟩

/-- Witness for C9's membership conjunct at a concrete input. -/
theorem C9_padding_uniform_range_witness :
    ∃ ps, SI.slice (PySlice.mk (some 2) (some 3) (some 1)) = SI.slice ps :=
  C9_padding_uniform_range.2.2.1 [SI.int 2] [SI.int 0] _ (by decide)

/-! ## Structural lemmas about `fix_slice` -/

/-- A non-ellipsis raw element as an `SI` (the ellipsis case is arbitrary;
it is only reached on expressions that contain no ellipsis). -/
def rawToSI : Raw → SI
  | .int i => .int i
  | .slice s => .slice s
  | .ellipsis => fullSI

theorem expandE_noEll : ∀ (e : List Raw), hasEll e = false → ∀ ex, expandE e ex = e.map rawToSI
  | [], _, _ => rfl
  | .int i :: rest, he, ex => by
    simp only [hasEll, List.any_cons, Bool.false_or] at he
    simp [expandE, rawToSI, expandE_noEll rest he ex]
  | .slice s :: rest, he, ex => by
    simp only [hasEll, List.any_cons, Bool.false_or] at he
    simp [expandE, rawToSI, expandE_noEll rest he ex]
  | .ellipsis :: _, he, _ => by simp [hasEll] at he

theorem expandE_length_noEll (e : List Raw) (he : hasEll e = false) (ex : Int) :
    (expandE e ex).length = e.length := by
  rw [expandE_noEll e he ex, List.length_map]

theorem hasEll_ne_nil {e : List Raw} (he : hasEll e = true) : 0 < e.length := by
  cases e with
  | nil => simp [hasEll] at he
  | cons _ _ => simp

theorem expandE_length_ell : ∀ (e : List Raw), hasEll e = true → ∀ ex : Int,
    (ex + 1).toNat + (e.length - 1) ≤ (expandE e ex).length
  | [], he, _ => by simp [hasEll] at he
  | .ellipsis :: rest, _, ex => by
    simp only [expandE, List.length_append, List.length_replicate, List.length_cons]
    rcases hr : hasEll rest with _ | _
    · rw [expandE_length_noEll rest hr 0]
      omega
    · have h1 := expandE_length_ell rest hr 0
      have h2 := hasEll_ne_nil hr
      omega
  | .int i :: rest, he, ex => by
    simp only [hasEll, List.any_cons, Bool.false_or] at he
    have h1 := expandE_length_ell rest he ex
    have h2 := hasEll_ne_nil he
    simp only [expandE, List.length_cons]
    omega
  | .slice s :: rest, he, ex => by
    simp only [hasEll, List.any_cons, Bool.false_or] at he
    have h1 := expandE_length_ell rest he ex
    have h2 := hasEll_ne_nil he
    simp only [expandE, List.length_cons]
    omega

theorem phase1_length_ge (e : List Raw) (shape : List Nat) :
    shape.length ≤ (phase1 e shape).length := by
  rcases he : hasEll e with _ | _
  · have hp : phase1 e shape
        = expandE e ((shape.length : Int) - e.length)
          ++ List.replicate ((shape.length : Int) - e.length).toNat fullSI := by
      simp [phase1, he]
    rw [hp, List.length_append, List.length_replicate, expandE_length_noEll e he _]
    omega
  · have hp : phase1 e shape = expandE e ((shape.length : Int) - e.length) := by
      simp [phase1, he]
    rw [hp]
    have h1 := expandE_length_ell e he ((shape.length : Int) - e.length)
    have h2 := hasEll_ne_nil he
    omega

/-- The tuple returned by `fix_slice` always has exactly one entry per axis. -/
theorem fix_slice_length (e : List Raw) (shape : List Nat) :
    (fix_slice e shape).length = shape.length := by
  unfold fix_slice
  rw [List.length_map, List.length_zip]
  have := phase1_length_ge e shape
  omega

/-! ## Claim C7: negative-index resolution -/

/-- C7: during normalization an integer pick `i < 0` becomes `i + n`, a
present negative bound of a range has the axis length added while absent
bounds stay open; `normalize([-1], (5,)) = Index(4)` and
`normalize([slice(-3,-1)], (5,)) = Range(2,4,1)`. -/
theorem C7_negative_resolution :
    (∀ (i : Int) (n : Nat), i < 0 → fix_slice [Raw.int i] [n] = [SI.int (i + n)]) ∧
    (∀ (a b st : Option Int) (n : Nat),
        fix_slice [Raw.slice ⟨a, b, st⟩] [n]
          = [SI.slice ⟨a.map fun v : Int => if v < 0 then v + (n : Int) else v,
                       b.map (fun v : Int => if v < 0 then v + (n : Int) else v),
                       some (stepOr1 st)⟩]) ∧
    fix_slice [Raw.int (-1)] [5] = [SI.int 4] ∧
    fix_slice [Raw.slice ⟨some (-3), some (-1), none⟩] [5] = [SI.slice ⟨some 2, some 4, some 1⟩] := by
  refine ⟨fun i n h => ?_, fun a b st n => ?_, by decide, by decide⟩
  · simp [fix_slice, phase1, expandE, hasEll, fixOne, h]
  · have hs : ∀ o : Option Int,
        fixBound n o = o.map fun v : Int => if v < 0 then v + (n : Int) else v := by
      intro o; cases o <;> rfl
    simp [fix_slice, phase1, expandE, hasEll, fixOne, hs]

/-- Witness for C7 at the spec's example input. -/
theorem C7_negative_resolution_witness :
    fix_slice [Raw.int (-1)] [5] = [SI.int ((-1) + (5 : Nat))] :=
  C7_negative_resolution.1 (-1) 5 (by decide)

/-! ## Claim C8: the non-negativity invariant -/

/-- Whether an optional bound is absent or non-negative. -/
def nonnegBound : Option Int → Bool
  | none => true
  | some v => decide (0 ≤ v)

/-- Whether a normalized selection contains no negative literal index and no
negative explicit start/stop bound. -/
def nonnegSel : SI → Bool
  | .int i => decide (0 ≤ i)
  | .slice s => nonnegBound s.start && nonnegBound s.stop

/-- Whether every literal index / explicit bound of a selection is at least
`-n` for its axis length `n` (the in-range lower bound). -/
def lowOKSel (s : SI) (n : Nat) : Bool :=
  match s with
  | .int i => decide (-(n : Int) ≤ i)
  | .slice sl =>
    (match sl.start with | none => true | some v => decide (-(n : Int) ≤ v)) &&
    (match sl.stop with | none => true | some v => decide (-(n : Int) ≤ v))

/-- C8 counterexample: `fix_slice((-10,), (5,))` returns `(-5,)`, which still
contains a negative literal index, so the unconditional non-negativity
invariant fails. -/
theorem C8_counterexample :
    fix_slice [Raw.int (-10)] [5] = [SI.int (-5)] ∧
    ¬ ∀ x ∈ fix_slice [Raw.int (-10)] [5], nonnegSel x = true := by
  constructor
  · decide
  · intro h
    have := h (SI.int (-5)) (by decide)
    simp [nonnegSel] at this

theorem fixBound_nonneg {n : Nat} {o : Option Int}
    (h : (match o with | none => true | some v => decide (-(n : Int) ≤ v)) = true) :
    nonnegBound (fixBound n o) = true := by
  cases o with
  | none => rfl
  | some v =>
    simp only [decide_eq_true_eq] at h
    simp only [fixBound, nonnegBound, decide_eq_true_eq]
    split <;> omega

/-- C8 (amended): if every literal index and explicit bound of the expanded
expression is at least `-n` for its axis length `n`, then no selection
returned by `fix_slice` contains a negative literal index or bound. -/
theorem C8_nonneg_amended (e : List Raw) (shape : List Nat)
    (h : ∀ p ∈ (phase1 e shape).zip shape, lowOKSel p.1 p.2 = true) :
    ∀ x ∈ fix_slice e shape, nonnegSel x = true := by
  intro x hx
  unfold fix_slice at hx
  rcases List.mem_map.1 hx with ⟨p, hp, rfl⟩
  have hlow := h p hp
  rcases p with ⟨s, n⟩
  cases s with
  | int i =>
    simp only [lowOKSel, decide_eq_true_eq] at hlow
    simp only [fixOne, nonnegSel, decide_eq_true_eq]
    split <;> omega
  | slice sl =>
    simp only [lowOKSel, Bool.and_eq_true] at hlow
    simp only [fixOne, nonnegSel, Bool.and_eq_true]
    exact ⟨fixBound_nonneg hlow.1, fixBound_nonneg hlow.2⟩

/-- Witness for the amended C8 at a concrete in-range input. -/
theorem C8_nonneg_amended_witness :
    nonnegSel (SI.int 4) = true :=
  C8_nonneg_amended [Raw.int (-1)] [5] (by decide) (SI.int 4) (by decide)

/-! ## Claim C2: no malformed-input errors are raised -/

/-- C2 counterexample: the code raises nothing. A zero step is silently
replaced by `1` in `fix_slice`, two ellipsis markers are both expanded,
more selections than axes are silently truncated by `zip`, and
`combine_slices` likewise defaults a zero step to `1`, producing full
results in every case the claim says must fail. -/
theorem C2_counterexample :
    fix_slice [Raw.slice ⟨none, none, some 0⟩] [5] = [SI.slice ⟨none, none, some 1⟩] ∧
    fix_slice [Raw.ellipsis, Raw.ellipsis] [3, 4, 5]
      = [SI.slice ⟨none, none, some 1⟩, SI.slice ⟨none, none, some 1⟩,
         SI.slice ⟨none, none, some 1⟩] ∧
    fix_slice [Raw.int 0, Raw.int 1] [7] = [SI.int 0] ∧
    combine_slices [SI.slice ⟨some 1, none, some 0⟩] [] = [SI.slice ⟨some 1, none, some 1⟩] := by
  refine ⟨by decide, by decide, by decide, by decide⟩

/-- C2 (amended): `fix_slice` and `combine_slices` are total and raise no
error: a zero step behaves exactly like step `1` in both functions, and
`fix_slice` always returns one selection per axis (extra selections are
truncated, missing ones padded). -/
theorem C2_no_error_amended :
    (∀ (a b : Option Int) (n : Nat),
        fixOne (SI.slice ⟨a, b, some 0⟩) n = fixOne (SI.slice ⟨a, b, some 1⟩) n) ∧
    (∀ (x : SI) (a b : Option Int),
        combineOne (SI.slice ⟨a, b, some 0⟩) x = combineOne (SI.slice ⟨a, b, some 1⟩) x ∧
        combineOne x (SI.slice ⟨a, b, some 0⟩) = combineOne x (SI.slice ⟨a, b, some 1⟩)) ∧
    (∀ (e : List Raw) (shape : List Nat), (fix_slice e shape).length = shape.length) := by
  refine ⟨fun a b n => ?_, fun x a b => ⟨?_, ?_⟩, fix_slice_length⟩
  · simp [fixOne, stepOr1]
  · simp [combineOne, stepOr1]
  · simp [combineOne, stepOr1]

/-! ## Claim C5: normalization shape-matching -/

/-- The spec's wording of the expansion phase: replace the ellipsis with
enough full-range selections to reach `len(shape)` entries, or pad on the
right with full-range selections when no ellipsis is present. -/
def specExpand (e : List Raw) (shape : List Nat) : List SI :=
  if hasEll e then
    e.flatMap fun x =>
      match x with
      | .ellipsis => List.replicate (shape.length - (e.length - countEll e)) fullSI
      | .int i => [SI.int i]
      | .slice s => [SI.slice s]
  else
    (e.map fun x =>
      match x with
      | .ellipsis => fullSI
      | .int i => SI.int i
      | .slice s => SI.slice s)
      ++ List.replicate (shape.length - e.length) fullSI

theorem hasEll_false_of_countEll_zero {e : List Raw} (h : countEll e = 0) : hasEll e = false := by
  simp only [countEll, List.countP_eq_zero] at h
  simp only [hasEll, List.any_eq_false]
  exact h

theorem countEll_pos_of_hasEll {e : List Raw} (h : hasEll e = true) : 0 < countEll e := by
  simp only [hasEll, List.any_eq_true] at h
  exact List.countP_pos_iff.2 h

theorem flatMap_noEll (e : List Raw) (he : hasEll e = false) (c : Nat) :
    (e.flatMap fun x =>
      match x with
      | .ellipsis => List.replicate c fullSI
      | .int i => [SI.int i]
      | .slice s => [SI.slice s]) = e.map rawToSI := by
  induction e with
  | nil => rfl
  | cons x rest ih =>
    cases x with
    | int i =>
      simp only [hasEll, List.any_cons, Bool.false_or] at he
      simp [List.flatMap_cons, ih he, rawToSI]
    | slice s =>
      simp only [hasEll, List.any_cons, Bool.false_or] at he
      simp [List.flatMap_cons, ih he, rawToSI]
    | ellipsis => simp [hasEll] at he

theorem expandE_one : ∀ (e : List Raw), countEll e = 1 → ∀ ex : Int,
    expandE e ex = e.flatMap fun x =>
      match x with
      | .ellipsis => List.replicate (ex + 1).toNat fullSI
      | .int i => [SI.int i]
      | .slice s => [SI.slice s]
  | [], h, _ => by simp [countEll] at h
  | .ellipsis :: rest, h, ex => by
    have hrest : countEll rest = 0 := by
      simp only [countEll, List.countP_cons] at h
      simpa [countEll] using h
    have hno : hasEll rest = false := hasEll_false_of_countEll_zero hrest
    simp only [expandE, List.flatMap_cons]
    rw [expandE_noEll rest hno 0, flatMap_noEll rest hno _]
  | .int i :: rest, h, ex => by
    have hrest : countEll rest = 1 := by
      simpa [countEll, List.countP_cons] using h
    simp only [expandE, List.flatMap_cons, List.singleton_append]
    rw [expandE_one rest hrest ex]
  | .slice s :: rest, h, ex => by
    have hrest : countEll rest = 1 := by
      simpa [countEll, List.countP_cons] using h
    simp only [expandE, List.flatMap_cons, List.singleton_append]
    rw [expandE_one rest hrest ex]

/-- C5: for a raw expression with at most one ellipsis and no more
non-ellipsis selections than axes, `fix_slice` returns exactly one selection
per axis, the expansion phase matches the spec's replace/pad description, and
`normalize([Ellipsis, 2], (3,4,5))` gives two full ranges and `Index(2)`. -/
theorem C5_shape_matching (e : List Raw) (shape : List Nat)
    (h1 : countEll e ≤ 1) (_h2 : e.length - countEll e ≤ shape.length) :
    (fix_slice e shape).length = shape.length ∧
    phase1 e shape = specExpand e shape ∧
    fix_slice [Raw.ellipsis, Raw.int 2] [3, 4, 5]
      = [SI.slice ⟨none, none, some 1⟩, SI.slice ⟨none, none, some 1⟩, SI.int 2] := by
  refine ⟨fix_slice_length e shape, ?_, by decide⟩
  rcases he : hasEll e with _ | _
  · have h0 : countEll e = 0 := by
      by_contra h0
      have hpos : 0 < countEll e := Nat.pos_of_ne_zero h0
      rcases List.countP_pos_iff.1 hpos with ⟨x, hx, hp⟩
      have : hasEll e = true := by
        simp only [hasEll, List.any_eq_true]
        exact ⟨x, hx, hp⟩
      rw [this] at he
      exact Bool.noConfusion he
    have hcast : ((shape.length : Int) - e.length).toNat = shape.length - e.length := by omega
    have hφ : phase1 e shape
        = e.map rawToSI ++ List.replicate (shape.length - e.length) fullSI := by
      simp [phase1, he, expandE_noEll e he, hcast]
    rw [hφ]
    simp only [specExpand, he, Bool.false_eq_true, if_false]
    exact congrArg (· ++ _) (List.map_congr_left fun x _ => by cases x <;> rfl)
  · have h0 : countEll e = 1 := by
      have := countEll_pos_of_hasEll he
      omega
    have hlen := hasEll_ne_nil he
    have hφ : phase1 e shape = expandE e ((shape.length : Int) - e.length) := by
      simp [phase1, he]
    rw [hφ, expandE_one e h0 _]
    have hcast : ((shape.length : Int) - (e.length : Int) + 1).toNat
        = shape.length - (e.length - countEll e) := by
      rw [h0]
      omega
    simp only [hcast, specExpand, he, if_true]

/-- Witness for C5 at the spec's ellipsis example. -/
theorem C5_shape_matching_witness :
    (fix_slice [Raw.ellipsis, Raw.int 2] [3, 4, 5]).length = 3 ∧
    phase1 [Raw.ellipsis, Raw.int 2] [3, 4, 5] = specExpand [Raw.ellipsis, Raw.int 2] [3, 4, 5] ∧
    fix_slice [Raw.ellipsis, Raw.int 2] [3, 4, 5]
      = [SI.slice ⟨none, none, some 1⟩, SI.slice ⟨none, none, some 1⟩, SI.int 2] :=
  C5_shape_matching [Raw.ellipsis, Raw.int 2] [3, 4, 5] (by decide) (by decide)

/-! ## Claim C10: idempotence of normalization on in-range inputs -/

/-- Re-inject a normalized selection as a raw one. -/
def siToRaw : SI → Raw
  | .int i => .int i
  | .slice s => .slice s

/-- Whether every literal index / explicit bound of a selection lies in
`[-n, n)` for its axis length `n`. -/
def inRangeSel (s : SI) (n : Nat) : Bool :=
  match s with
  | .int i => decide (-(n : Int) ≤ i) && decide (i < (n : Int))
  | .slice sl =>
    (match sl.start with
     | none => true
     | some v => decide (-(n : Int) ≤ v) && decide (v < (n : Int))) &&
    (match sl.stop with
     | none => true
     | some v => decide (-(n : Int) ≤ v) && decide (v < (n : Int)))

theorem hasEll_map_siToRaw (l : List SI) : hasEll (l.map siToRaw) = false := by
  induction l with
  | nil => rfl
  | cons x rest ih => cases x <;> simpa [hasEll, siToRaw] using ih

theorem rawToSI_siToRaw (x : SI) : rawToSI (siToRaw x) = x := by
  cases x <;> rfl

theorem phase1_fix_output (r : List SI) (shape : List Nat) (hr : r.length = shape.length) :
    phase1 (r.map siToRaw) shape = r := by
  have hno := hasEll_map_siToRaw r
  have hcast : ((shape.length : Int) - ((r.map siToRaw).length : Int)).toNat = 0 := by
    rw [List.length_map, hr]
    omega
  simp only [phase1, hno, expandE_noEll _ hno, hcast]
  simp only [Bool.false_eq_true, if_false, List.replicate_zero, List.append_nil, List.map_map]
  calc r.map (rawToSI ∘ siToRaw) = r.map id := List.map_congr_left fun x _ => rawToSI_siToRaw x
    _ = r := List.map_id r

theorem stepOr1_idem (o : Option Int) : stepOr1 (some (stepOr1 o)) = stepOr1 o := by
  show (if stepOr1 o = 0 then 1 else stepOr1 o) = stepOr1 o
  rw [if_neg (stepOr1_ne_zero o)]

theorem fixBound_idem {n : Nat} {o : Option Int}
    (h : (match o with
          | none => true
          | some v => decide (-(n : Int) ≤ v) && decide (v < (n : Int))) = true) :
    fixBound n (fixBound n o) = fixBound n o := by
  cases o with
  | none => rfl
  | some v =>
    simp only [Bool.and_eq_true, decide_eq_true_eq] at h
    simp only [fixBound]
    have hw : ¬ (if v < 0 then v + (n : Int) else v) < 0 := by split <;> omega
    rw [if_neg hw]

theorem fixOne_fixOne {x : SI} {n : Nat} (h : inRangeSel x n = true) :
    fixOne (fixOne x n) n = fixOne x n := by
  cases x with
  | int i =>
    simp only [inRangeSel, Bool.and_eq_true, decide_eq_true_eq] at h
    simp only [fixOne]
    have hw : ¬ (if i < 0 then i + (n : Int) else i) < 0 := by split <;> omega
    rw [if_neg hw]
  | slice sl =>
    simp only [inRangeSel, Bool.and_eq_true] at h
    simp only [fixOne]
    rw [fixBound_idem h.1, fixBound_idem h.2, stepOr1_idem]

theorem fix_slice_idem_aux : ∀ (l : List SI) (sh : List Nat),
    (∀ p ∈ l.zip sh, inRangeSel p.1 p.2 = true) →
    ((((l.zip sh).map fun p => fixOne p.1 p.2).zip sh).map fun p => fixOne p.1 p.2)
      = (l.zip sh).map fun p => fixOne p.1 p.2
  | [], _, _ => by simp
  | _ :: _, [], _ => by simp
  | x :: xs, n :: ns, h => by
    simp only [List.zip_cons_cons, List.map_cons]
    rw [fixOne_fixOne (h (x, n) (by simp)),
      fix_slice_idem_aux xs ns fun p hp => h p (List.mem_cons_of_mem _ hp)]

/-- C10: on inputs whose literal indexes and explicit bounds lie in
`[-n, n)` for their axis lengths, `fix_slice` is idempotent:
normalizing a second time against the same shape changes nothing. -/
theorem C10_idempotent (e : List Raw) (shape : List Nat)
    (h : ∀ p ∈ (phase1 e shape).zip shape, inRangeSel p.1 p.2 = true) :
    fix_slice ((fix_slice e shape).map siToRaw) shape = fix_slice e shape := by
  have h1 : phase1 ((fix_slice e shape).map siToRaw) shape = fix_slice e shape :=
    phase1_fix_output _ _ (fix_slice_length e shape)
  calc fix_slice ((fix_slice e shape).map siToRaw) shape
      = ((phase1 ((fix_slice e shape).map siToRaw) shape).zip shape).map
          (fun p => fixOne p.1 p.2) := rfl
    _ = ((fix_slice e shape).zip shape).map fun p => fixOne p.1 p.2 := by rw [h1]
    _ = (((((phase1 e shape).zip shape).map fun p => fixOne p.1 p.2).zip shape).map
          fun p => fixOne p.1 p.2) := rfl
    _ = ((phase1 e shape).zip shape).map fun p => fixOne p.1 p.2 := fix_slice_idem_aux _ _ h
    _ = fix_slice e shape := rfl

/-- Witness for C10 at a concrete in-range input. -/
theorem C10_idempotent_witness :
    fix_slice ((fix_slice [Raw.int (-1)] [5]).map siToRaw) [5] = fix_slice [Raw.int (-1)] [5] :=
  C10_idempotent [Raw.int (-1)] [5] (by decide)

/-! ## Claim C3: trailing-elision in `hyperslab` -/

theorem dropTrailingFull_append_full (l : List SI) (k : Nat) :
    dropTrailingFull (l ++ List.replicate k fullSI) = dropTrailingFull l := by
  unfold dropTrailingFull
  rw [List.reverse_append, List.reverse_replicate]
  congr 1
  induction k with
  | zero => simp
  | succ m ih =>
    rw [List.replicate_succ, List.cons_append, List.dropWhile_cons,
      if_pos (beq_self_eq_true fullSI)]
    exact ih

/-- C3 counterexample: a trailing `Range(None, None, 1)` is not equal to
`slice(None)` (whose step is `None`), so it is kept and rendered; the result
is not just the first axis's bracket group. -/
theorem C3_counterexample :
    hyperslab [SI.slice ⟨some 1, some 3, some 1⟩, SI.slice ⟨none, none, some 1⟩]
      ≠ some "[1:1:2]" := by decide

/-- C3 (amended): `hyperslab` drops exactly the trailing selections equal to
the all-open `slice(None, None, None)`; a trailing `Range(None, None, 1)`
with an explicit unit step is kept, so the spec's example renders both axes. -/
theorem C3_trailing_elision :
    (∀ (l : List SI) (k : Nat), hyperslab (l ++ List.replicate k fullSI) = hyperslab l) ∧
    hyperslab [SI.slice ⟨some 1, some 3, some 1⟩, SI.slice ⟨none, none, some 1⟩]
      = some "[1:1:2][0:1:9223372036854775806]" :=
  ⟨fun l k => congrArg renderAll (dropTrailingFull_append_full l k), by decide⟩

/-! ## Claim C6: the serializer's rendering rule -/

/-- The per-axis rendering rule as amended: `start` defaults to `0` when
open, `step` defaults to `1` when open or zero, and the last index is
`stop - 1` for a bounded non-zero stop but the maximum-index sentinel
`sys.maxint - 1` when the stop is open or zero. -/
def specRenderC6 (s : PySlice) : String :=
  "[" ++ toString (match s.start with | none => (0 : Int) | some v => v) ++ ":"
    ++ toString (match s.step with | none => (1 : Int) | some v => if v = 0 then 1 else v) ++ ":"
    ++ toString ((match s.stop with
        | none => sys_maxint
        | some v => if v = 0 then sys_maxint else v) - 1) ++ "]"

/-- Concatenation of the bracket groups in axis order with no separators. -/
def specConcat : List String → String
  | [] => ""
  | s :: rest => s ++ specConcat rest

theorem renderSel_slice (s : PySlice) : renderSel (SI.slice s) = some (specRenderC6 s) := by
  rcases s with ⟨a, b, st⟩
  cases a <;> cases b <;> cases st <;> rfl

theorem renderAll_slices : ∀ (L : List SI), (∀ x ∈ L, ∃ s, x = SI.slice s) →
    renderAll L = some (specConcat (L.map fun x => specRenderC6 (outSlice x)))
  | [], _ => rfl
  | x :: rest, h => by
    rcases h x (by simp) with ⟨s, rfl⟩
    have hr := renderAll_slices rest fun y hy => h y (List.mem_cons_of_mem _ hy)
    simp only [renderAll, renderSel_slice, hr, List.map_cons, specConcat, outSlice]

theorem mem_dropTrailingFull {l : List SI} {x : SI} (h : x ∈ dropTrailingFull l) : x ∈ l := by
  unfold dropTrailingFull at h
  rw [List.mem_reverse] at h
  exact List.mem_reverse.1 ((List.dropWhile_sublist _).mem h)

/-- C6 counterexample: a bounded `stop = 0` is falsy in Python, so
`(s.stop or sys.maxint) - 1` renders the sentinel, not `stop - 1 = -1`. -/
theorem C6_counterexample :
    hyperslab [SI.slice ⟨some 0, some 0, some 1⟩] = some "[0:1:9223372036854775806]" ∧
    "[0:1:9223372036854775806]" ≠ "[0:1:-1]" :=
  ⟨by decide, by decide⟩

/-- C6 (amended): every kept slice selection is rendered as
`[start:step:last]` with `start or 0`, `step or 1` (zero step also defaults),
and `last = stop - 1` for bounded non-zero stop or the sentinel
`sys.maxint - 1` for an open or zero stop; the output concatenates the groups
in order with no separators; an integer selection has no slice attributes and
makes `hyperslab` fail instead of rendering a unit range. -/
theorem C6_render_rule :
    (∀ s : PySlice, renderSel (SI.slice s) = some (specRenderC6 s)) ∧
    (∀ l : List PySlice,
        hyperslab (l.map SI.slice)
          = some (specConcat ((dropTrailingFull (l.map SI.slice)).map
              fun x => specRenderC6 (outSlice x)))) ∧
    hyperslab [SI.int 1] = none := by
  refine ⟨renderSel_slice, fun l => ?_, by decide⟩
  apply renderAll_slices
  intro x hx
  rcases List.mem_map.1 (mem_dropTrailingFull hx) with ⟨s, _, rfl⟩
  exact ⟨s, rfl⟩

/-! ## Claim C1: the composition law

Helper lemmas about `filterMap` over an index range, used to characterize
`applySlice`. -/

theorem filterMap_range_congr {β : Type v} {g g' : Nat → Option β} (n : Nat)
    (h : ∀ t, t < n → g t = g' t) :
    (List.range n).filterMap g = (List.range n).filterMap g' := by
  induction n with
  | zero => rfl
  | succ m ih =>
    rw [List.range_succ, List.filterMap_append, List.filterMap_append,
      ih fun t ht => h t (by omega)]
    simp only [List.filterMap_cons, List.filterMap_nil, h m (by omega)]

theorem filterMap_range_restrict {β : Type v} {g : Nat → Option β} {c n : Nat}
    (hc : c ≤ n) (h : ∀ t, c ≤ t → g t = none) :
    (List.range n).filterMap g = (List.range c).filterMap g := by
  induction n with
  | zero =>
    have : c = 0 := by omega
    subst this
    rfl
  | succ m ih =>
    rcases Nat.lt_or_ge c (m + 1) with hlt | hge
    · have hcm : c ≤ m := by omega
      rw [List.range_succ, List.filterMap_append, ih hcm]
      simp [h m hcm]
    · have : c = m + 1 := by omega
      subst this
      rfl

theorem window_eq (xs : List α) (off : Nat) : ∀ (m : Nat), m ≤ xs.length - off →
    (List.range m).filterMap (fun t => xs[off + t]?) = (xs.drop off).take m
  | 0, _ => by simp
  | m + 1, h => by
    rw [List.range_succ, List.filterMap_append, window_eq xs off m (by omega), List.take_succ]
    congr 1
    rw [List.getElem?_drop]
    rcases hx : xs[off + m]? with _ | a
    · exact absurd hx (by
        rw [List.getElem?_eq_getElem (show off + m < xs.length by omega)]
        simp)
    · simp [List.filterMap_cons, hx]

theorem window_getElem? (xs : List α) (off m j : Nat) :
    ((xs.drop off).take m)[j]? = if j < m then xs[off + j]? else none := by
  rcases Nat.lt_or_ge j m with h | h
  · rw [if_pos h, List.getElem?_take_of_lt h, List.getElem?_drop]
  · rw [if_neg (by omega)]
    apply List.getElem?_eq_none
    rw [List.length_take]
    omega

theorem window_length (xs : List α) (off m : Nat) (h : m ≤ xs.length - off) :
    ((xs.drop off).take m).length = m := by
  rw [List.length_take, List.length_drop]
  omega

theorem inStop_some {j i : Int} : (inStop (some j) i = true) ↔ i < j := by
  simp [inStop]

/-- The number of indices a slice may select from an axis of length `n`
before hitting its stop bound: `n` when the stop is open, `min stop n`
otherwise. -/
def stopCap (s : PySlice) (n : Nat) : Nat :=
  match s.stop with
  | none => n
  | some t => min t.toNat n

theorem stopCap_le (s : PySlice) (n : Nat) : stopCap s n ≤ n := by
  unfold stopCap
  cases s.stop with
  | none => exact le_rfl
  | some t => exact min_le_right _ _

/-- A unit-step slice with non-negative (or open) start is a contiguous
window: drop the start, then take up to the stop cap. -/
theorem applySlice_step_one (a : PySlice) (xs : List α)
    (hsa : 0 ≤ a.start.getD 0) (hs : stepOr1 a.step = 1) :
    applySlice a xs
      = (xs.drop (a.start.getD 0).toNat).take
          (stopCap a xs.length - (a.start.getD 0).toNat) := by
  have hcast : ((a.start.getD 0).toNat : Int) = a.start.getD 0 := Int.toNat_of_nonneg hsa
  have hcapn : stopCap a xs.length - (a.start.getD 0).toNat
      ≤ xs.length - (a.start.getD 0).toNat := by
    have := stopCap_le a xs.length
    omega
  have e1 : applySlice a xs
      = (List.range xs.length).filterMap
          fun t => if t < stopCap a xs.length - (a.start.getD 0).toNat
                   then xs[(a.start.getD 0).toNat + t]? else none := by
    unfold applySlice
    apply filterMap_range_congr
    intro t _
    rw [hs, mul_one]
    have h0 : 0 ≤ a.start.getD 0 + (t : Int) := by omega
    have hidx : (a.start.getD 0 + (t : Int)).toNat = (a.start.getD 0).toNat + t := by omega
    cases hst : a.stop with
    | none =>
      have hcap : stopCap a xs.length = xs.length := by unfold stopCap; rw [hst]
      rw [if_pos ⟨h0, rfl⟩, hidx]
      rcases Nat.lt_or_ge t (stopCap a xs.length - (a.start.getD 0).toNat) with hlt | hge
      · rw [if_pos hlt]
      · rw [if_neg (by omega)]
        apply List.getElem?_eq_none
        omega
    | some ta =>
      have hcap : stopCap a xs.length = min ta.toNat xs.length := by unfold stopCap; rw [hst]
      by_cases hc : a.start.getD 0 + (t : Int) < ta
      · rw [if_pos ⟨h0, inStop_some.2 hc⟩, hidx]
        rcases Nat.lt_or_ge t (stopCap a xs.length - (a.start.getD 0).toNat) with hlt | hge
        · rw [if_pos hlt]
        · rw [if_neg (by omega)]
          apply List.getElem?_eq_none
          omega
      · rw [if_neg (by
            rintro ⟨-, hin⟩
            exact hc (inStop_some.1 hin)),
          if_neg (by omega)]
  have h2 : (List.range xs.length).filterMap
        (fun t => if t < stopCap a xs.length - (a.start.getD 0).toNat
                  then xs[(a.start.getD 0).toNat + t]? else none)
      = (List.range (stopCap a xs.length - (a.start.getD 0).toNat)).filterMap
        (fun t => if t < stopCap a xs.length - (a.start.getD 0).toNat
                  then xs[(a.start.getD 0).toNat + t]? else none) :=
    filterMap_range_restrict (by have := stopCap_le a xs.length; omega)
      fun t ht => if_neg (by omega)
  have h3 : (List.range (stopCap a xs.length - (a.start.getD 0).toNat)).filterMap
        (fun t => if t < stopCap a xs.length - (a.start.getD 0).toNat
                  then xs[(a.start.getD 0).toNat + t]? else none)
      = (List.range (stopCap a xs.length - (a.start.getD 0).toNat)).filterMap
        (fun t => xs[(a.start.getD 0).toNat + t]?) :=
    filterMap_range_congr _ fun t ht => if_pos ht
  rw [e1, h2, h3, window_eq xs _ _ hcapn]

/-- The per-axis composition correctness of `combine_slices`: applying the
combined slice equals sequential application, for normalized slices when the
first slice has unit step. -/
theorem applySlice_applySlice (a b : PySlice) (xs : List α)
    (hsa : 0 ≤ a.start.getD 0) (hsb : 0 ≤ b.start.getD 0)
    (hs1 : stepOr1 a.step = 1) (hkb : 0 < stepOr1 b.step) :
    applySlice b (applySlice a xs) = applySlice (combineAx a b) xs := by
  have hcast : ((a.start.getD 0).toNat : Int) = a.start.getD 0 := Int.toNat_of_nonneg hsa
  have hstople := stopCap_le a xs.length
  have hcapn : stopCap a xs.length - (a.start.getD 0).toNat
      ≤ xs.length - (a.start.getD 0).toNat := by omega
  have hstart : (combineAx a b).start.getD 0 = a.start.getD 0 + b.start.getD 0 := rfl
  have hstep : stepOr1 (combineAx a b).step = stepOr1 b.step := by
    show stepOr1 (some (stepOr1 a.step * stepOr1 b.step)) = stepOr1 b.step
    rw [hs1, one_mul, stepOr1_idem]
  have hstop : (combineAx a b).stop
      = (match a.stop, b.stop with
         | none, none => none
         | none, some jb => some (a.start.getD 0 + jb)
         | some ja, none => some ja
         | some ja, some jb => some (min ja (a.start.getD 0 + jb))) := rfl
  have main : ∀ t : Nat,
      (if 0 ≤ b.start.getD 0 + (t : Int) * stepOr1 b.step ∧
          inStop b.stop (b.start.getD 0 + (t : Int) * stepOr1 b.step) = true
       then ((xs.drop (a.start.getD 0).toNat).take
              (stopCap a xs.length - (a.start.getD 0).toNat))[
                (b.start.getD 0 + (t : Int) * stepOr1 b.step).toNat]?
       else none)
      = (if 0 ≤ (combineAx a b).start.getD 0 + (t : Int) * stepOr1 (combineAx a b).step ∧
            inStop (combineAx a b).stop
              ((combineAx a b).start.getD 0 + (t : Int) * stepOr1 (combineAx a b).step) = true
         then xs[((combineAx a b).start.getD 0
              + (t : Int) * stepOr1 (combineAx a b).step).toNat]?
         else none) := by
    intro t
    rw [hstart, hstep, window_getElem?]
    set J : Int := b.start.getD 0 + (t : Int) * stepOr1 b.step with hJdef
    have hA : 0 ≤ (t : Int) * stepOr1 b.step := mul_nonneg (by omega) (by omega)
    have hJ0 : 0 ≤ J := by omega
    have hidx : (a.start.getD 0 + J).toNat = (a.start.getD 0).toNat + J.toNat := by omega
    have hcomb : a.start.getD 0 + b.start.getD 0 + (t : Int) * stepOr1 b.step
        = a.start.getD 0 + J := by rw [hJdef]; ring
    rw [hcomb]
    cases hsta : a.stop with
    | none =>
      have hcapeq : stopCap a xs.length = xs.length := by unfold stopCap; rw [hsta]
      cases hstb : b.stop with
      | none =>
        have hM : (combineAx a b).stop = none := by rw [hstop, hsta, hstb]
        rw [hM, if_pos (⟨hJ0, rfl⟩ : 0 ≤ J ∧ inStop none J = true),
          if_pos (⟨by omega, rfl⟩ :
            0 ≤ a.start.getD 0 + J ∧ inStop none (a.start.getD 0 + J) = true), hidx]
        by_cases hj : J.toNat < stopCap a xs.length - (a.start.getD 0).toNat
        · rw [if_pos hj]
        · rw [if_neg hj]
          symm
          apply List.getElem?_eq_none
          omega
      | some tb =>
        have hM : (combineAx a b).stop = some (a.start.getD 0 + tb) := by
          rw [hstop, hsta, hstb]
        rw [hM]
        by_cases hb' : J < tb
        · rw [if_pos (⟨hJ0, inStop_some.2 hb'⟩ : 0 ≤ J ∧ inStop (some tb) J = true),
            if_pos (⟨by omega, inStop_some.2 (by omega)⟩ :
              0 ≤ a.start.getD 0 + J ∧
                inStop (some (a.start.getD 0 + tb)) (a.start.getD 0 + J) = true), hidx]
          by_cases hj : J.toNat < stopCap a xs.length - (a.start.getD 0).toNat
          · rw [if_pos hj]
          · rw [if_neg hj]
            symm
            apply List.getElem?_eq_none
            omega
        · rw [if_neg (fun h => hb' (inStop_some.1 h.2) :
              ¬ (0 ≤ J ∧ inStop (some tb) J = true)),
            if_neg (fun h => hb' (by have := inStop_some.1 h.2; omega) :
              ¬ (0 ≤ a.start.getD 0 + J ∧
                  inStop (some (a.start.getD 0 + tb)) (a.start.getD 0 + J) = true))]
    | some ta =>
      have hcapeq : stopCap a xs.length = min ta.toNat xs.length := by
        unfold stopCap; rw [hsta]
      cases hstb : b.stop with
      | none =>
        have hM : (combineAx a b).stop = some ta := by rw [hstop, hsta, hstb]
        rw [hM, if_pos (⟨hJ0, rfl⟩ : 0 ≤ J ∧ inStop none J = true)]
        by_cases hc : a.start.getD 0 + J < ta
        · rw [if_pos (⟨by omega, inStop_some.2 hc⟩ :
              0 ≤ a.start.getD 0 + J ∧ inStop (some ta) (a.start.getD 0 + J) = true), hidx]
          by_cases hj : J.toNat < stopCap a xs.length - (a.start.getD 0).toNat
          · rw [if_pos hj]
          · rw [if_neg hj]
            symm
            apply List.getElem?_eq_none
            omega
        · rw [if_neg (by omega : ¬ J.toNat < stopCap a xs.length - (a.start.getD 0).toNat),
            if_neg (fun h => hc (inStop_some.1 h.2) :
              ¬ (0 ≤ a.start.getD 0 + J ∧
                  inStop (some ta) (a.start.getD 0 + J) = true))]
      | some tb =>
        have hM : (combineAx a b).stop = some (min ta (a.start.getD 0 + tb)) := by
          rw [hstop, hsta, hstb]
        rw [hM]
        by_cases hb' : J < tb
        · rw [if_pos (⟨hJ0, inStop_some.2 hb'⟩ : 0 ≤ J ∧ inStop (some tb) J = true)]
          by_cases hj : J.toNat < stopCap a xs.length - (a.start.getD 0).toNat
          · have hlt : a.start.getD 0 + J < min ta (a.start.getD 0 + tb) :=
              lt_min (by omega) (by omega)
            rw [if_pos hj,
              if_pos (⟨by omega, inStop_some.2 hlt⟩ :
                0 ≤ a.start.getD 0 + J ∧
                  inStop (some (min ta (a.start.getD 0 + tb))) (a.start.getD 0 + J) = true),
              hidx]
          · rw [if_neg hj]
            by_cases hcnd : 0 ≤ a.start.getD 0 + J ∧
                inStop (some (min ta (a.start.getD 0 + tb))) (a.start.getD 0 + J) = true
            · rw [if_pos hcnd, hidx]
              symm
              apply List.getElem?_eq_none
              have hm := lt_min_iff.1 (inStop_some.1 hcnd.2)
              omega
            · rw [if_neg hcnd]
        · rw [if_neg (fun h => hb' (inStop_some.1 h.2) :
              ¬ (0 ≤ J ∧ inStop (some tb) J = true)),
            if_neg (fun h => hb' (by have := lt_min_iff.1 (inStop_some.1 h.2); omega) :
              ¬ (0 ≤ a.start.getD 0 + J ∧
                  inStop (some (min ta (a.start.getD 0 + tb))) (a.start.getD 0 + J) = true))]
  have hnone : ∀ t : Nat, stopCap a xs.length - (a.start.getD 0).toNat ≤ t →
      (if 0 ≤ (combineAx a b).start.getD 0 + (t : Int) * stepOr1 (combineAx a b).step ∧
          inStop (combineAx a b).stop
            ((combineAx a b).start.getD 0 + (t : Int) * stepOr1 (combineAx a b).step) = true
       then xs[((combineAx a b).start.getD 0
            + (t : Int) * stepOr1 (combineAx a b).step).toNat]?
       else none) = none := by
    intro t ht
    rw [hstart, hstep]
    set J : Int := b.start.getD 0 + (t : Int) * stepOr1 b.step with hJdef
    have hA : 0 ≤ (t : Int) * stepOr1 b.step := mul_nonneg (by omega) (by omega)
    have hJ0 : 0 ≤ J := by omega
    have hJt : (t : Int) ≤ J := by
      have h1 : (t : Int) * 1 ≤ (t : Int) * stepOr1 b.step :=
        mul_le_mul_of_nonneg_left (by omega) (by omega)
      omega
    have hidx : (a.start.getD 0 + J).toNat = (a.start.getD 0).toNat + J.toNat := by omega
    have hcomb : a.start.getD 0 + b.start.getD 0 + (t : Int) * stepOr1 b.step
        = a.start.getD 0 + J := by rw [hJdef]; ring
    rw [hcomb]
    cases hsta : a.stop with
    | none =>
      have hcapeq : stopCap a xs.length = xs.length := by unfold stopCap; rw [hsta]
      cases hstb : b.stop with
      | none =>
        have hM : (combineAx a b).stop = none := by rw [hstop, hsta, hstb]
        rw [hM, if_pos (⟨by omega, rfl⟩ :
          0 ≤ a.start.getD 0 + J ∧ inStop none (a.start.getD 0 + J) = true), hidx]
        apply List.getElem?_eq_none
        omega
      | some tb =>
        have hM : (combineAx a b).stop = some (a.start.getD 0 + tb) := by
          rw [hstop, hsta, hstb]
        rw [hM]
        by_cases hcnd : 0 ≤ a.start.getD 0 + J ∧
            inStop (some (a.start.getD 0 + tb)) (a.start.getD 0 + J) = true
        · rw [if_pos hcnd, hidx]
          apply List.getElem?_eq_none
          omega
        · rw [if_neg hcnd]
    | some ta =>
      have hcapeq : stopCap a xs.length = min ta.toNat xs.length := by
        unfold stopCap; rw [hsta]
      cases hstb : b.stop with
      | none =>
        have hM : (combineAx a b).stop = some ta := by rw [hstop, hsta, hstb]
        rw [hM]
        by_cases hcnd : 0 ≤ a.start.getD 0 + J ∧
            inStop (some ta) (a.start.getD 0 + J) = true
        · rw [if_pos hcnd, hidx]
          apply List.getElem?_eq_none
          have := inStop_some.1 hcnd.2
          omega
        · rw [if_neg hcnd]
      | some tb =>
        have hM : (combineAx a b).stop = some (min ta (a.start.getD 0 + tb)) := by
          rw [hstop, hsta, hstb]
        rw [hM]
        by_cases hcnd : 0 ≤ a.start.getD 0 + J ∧
            inStop (some (min ta (a.start.getD 0 + tb))) (a.start.getD 0 + J) = true
        · rw [if_pos hcnd, hidx]
          apply List.getElem?_eq_none
          have := lt_min_iff.1 (inStop_some.1 hcnd.2)
          omega
        · rw [if_neg hcnd]
  rw [applySlice_step_one a xs hsa hs1]
  unfold applySlice
  rw [window_length xs _ _ hcapn,
    filterMap_range_congr (stopCap a xs.length - (a.start.getD 0).toNat) fun t _ => main t]
  exact (filterMap_range_restrict (by omega) fun t ht => hnone t ht).symm

theorem applySlice_map (s : PySlice) (f : α → β) (xs : List α) :
    applySlice s (xs.map f) = (applySlice s xs).map f := by
  unfold applySlice
  rw [List.length_map, List.map_filterMap]
  apply filterMap_range_congr
  intro t _
  split
  · rw [List.getElem?_map]
  · rfl

theorem applySlice_combineAx_full_left (b : PySlice) (xs : List α) :
    applySlice (combineAx fullSlice b) xs = applySlice b xs := by
  unfold applySlice
  apply filterMap_range_congr
  intro t _
  have hstart : (combineAx fullSlice b).start.getD 0 = b.start.getD 0 := by
    show ((0 : Int) + b.start.getD 0 : Int) = b.start.getD 0
    ring
  have hstep : stepOr1 (combineAx fullSlice b).step = stepOr1 b.step := by
    show stepOr1 (some (stepOr1 none * stepOr1 b.step)) = stepOr1 b.step
    rw [show stepOr1 none = 1 from rfl, one_mul, stepOr1_idem]
  have hstop : ∀ i : Int, inStop (combineAx fullSlice b).stop i = inStop b.stop i := by
    intro i
    cases hb : b.stop with
    | none =>
      have h : (combineAx fullSlice b).stop = none := by
        simp [combineAx, combineOne, fullSlice, hb]
      rw [h]
    | some jb =>
      have h : (combineAx fullSlice b).stop = some jb := by
        simp [combineAx, combineOne, fullSlice, hb]
      rw [h]
  rw [hstart, hstep, hstop]

theorem applySlice_combineAx_full_right (a : PySlice) (xs : List α) :
    applySlice (combineAx a fullSlice) xs = applySlice a xs := by
  unfold applySlice
  apply filterMap_range_congr
  intro t _
  have hstart : (combineAx a fullSlice).start.getD 0 = a.start.getD 0 := by
    show (a.start.getD 0 + (0 : Int) : Int) = a.start.getD 0
    ring
  have hstep : stepOr1 (combineAx a fullSlice).step = stepOr1 a.step := by
    show stepOr1 (some (stepOr1 a.step * stepOr1 none)) = stepOr1 a.step
    rw [show stepOr1 none = 1 from rfl, mul_one, stepOr1_idem]
  have hstop : ∀ i : Int, inStop (combineAx a fullSlice).stop i = inStop a.stop i := by
    intro i
    cases ha : a.stop with
    | none =>
      have h : (combineAx a fullSlice).stop = none := by
        simp [combineAx, combineOne, fullSlice, ha]
      rw [h]
    | some ja =>
      have h : (combineAx a fullSlice).stop = some ja := by
        simp [combineAx, combineOne, fullSlice, ha]
      rw [h]
  rw [hstart, hstep, hstop]

theorem combine_nil_right : ∀ l : List SI,
    combine_slices l [] = l.map fun x => SI.slice (combineOne x fullSI)
  | [] => rfl
  | x :: xs => by
    show SI.slice (combineOne x fullSI) :: combine_slices xs [] = _
    rw [combine_nil_right xs, List.map_cons]

/-- Custom induction principle for nested-list arrays. -/
theorem NDA.ind {α : Type u} {P : NDA α → Prop}
    (hs : ∀ v, P (.scalar v))
    (hd : ∀ xs, (∀ x ∈ xs, P x) → P (.dim xs)) : ∀ a, P a
  | .scalar v => hs v
  | .dim xs => hd xs fun x hx => NDA.ind hs hd x
termination_by a => sizeOf a
decreasing_by
  have := List.sizeOf_lt_of_mem hx
  simp only [NDA.dim.sizeOf_spec]
  omega

theorem normSlice_start {s : PySlice} (h : normSlice s = true) : 0 ≤ s.start.getD 0 := by
  simp only [normSlice, Bool.and_eq_true] at h
  rcases h with ⟨⟨h1, -⟩, -⟩
  cases hs : s.start with
  | none => simp
  | some v =>
    rw [hs] at h1
    simpa using h1

theorem normSlice_step {s : PySlice} (h : normSlice s = true) : 0 < stepOr1 s.step := by
  simp only [normSlice, Bool.and_eq_true, decide_eq_true_eq] at h
  exact h.2

/-- C1 (amended): the composition law holds for tuples of normalized slices
(non-negative or open bounds, positive steps) whose first tuple has unit
steps: applying `s1` then `s2` equals applying `combine_slices(s1, s2)`. -/
theorem C1_composition {α : Type u} (s1 s2 : List PySlice) (A : NDA α)
    (h1 : ∀ x ∈ s1, normSlice x = true ∧ stepOr1 x.step = 1)
    (h2 : ∀ x ∈ s2, normSlice x = true) :
    applyAll s2 (applyAll s1 A)
      = applyAll ((combine_slices (s1.map SI.slice) (s2.map SI.slice)).map outSlice) A := by
  induction A using NDA.ind generalizing s1 s2 with
  | hs v => rw [applyAll_scalar, applyAll_scalar, applyAll_scalar]
  | hd xs ih =>
    cases s1 with
    | nil =>
      cases s2 with
      | nil => rw [applyAll_nil, applyAll_nil, show (combine_slices (([] : List PySlice).map
          SI.slice) (([] : List PySlice).map SI.slice)).map outSlice = [] from rfl, applyAll_nil]
      | cons b r2 =>
        rw [applyAll_nil, applyAll_cons_dim,
          show (combine_slices (([] : List PySlice).map SI.slice)
              ((b :: r2).map SI.slice)).map outSlice
            = combineAx fullSlice b
              :: (combine_slices ([] : List SI) (r2.map SI.slice)).map outSlice from rfl,
          applyAll_cons_dim, applySlice_combineAx_full_left]
        congr 1
        apply List.map_congr_left
        intro x hx
        have := ih x (mem_applySlice hx) [] r2 (by intro y hy; cases hy)
          fun y hy => h2 y (List.mem_cons_of_mem _ hy)
        rw [applyAll_nil] at this
        exact this
    | cons a r1 =>
      cases s2 with
      | nil =>
        rw [applyAll_nil, applyAll_cons_dim,
          show (combine_slices ((a :: r1).map SI.slice)
              (([] : List PySlice).map SI.slice)).map outSlice
            = combineAx a fullSlice
              :: (combine_slices (r1.map SI.slice) ([] : List SI)).map outSlice from rfl,
          applyAll_cons_dim, applySlice_combineAx_full_right]
        congr 1
        apply List.map_congr_left
        intro x hx
        have := ih x (mem_applySlice hx) r1 []
          (fun y hy => h1 y (List.mem_cons_of_mem _ hy)) (by intro y hy; cases hy)
        rw [applyAll_nil] at this
        exact this
      | cons b r2 =>
        obtain ⟨han, ha1⟩ := h1 a (by simp)
        have hbn := h2 b (by simp)
        rw [applyAll_cons_dim, applyAll_cons_dim, applySlice_map, List.map_map,
          applySlice_applySlice a b xs (normSlice_start han) (normSlice_start hbn)
            ha1 (normSlice_step hbn),
          show (combine_slices ((a :: r1).map SI.slice) ((b :: r2).map SI.slice)).map outSlice
            = combineAx a b
              :: (combine_slices (r1.map SI.slice) (r2.map SI.slice)).map outSlice from rfl,
          applyAll_cons_dim]
        congr 1
        apply List.map_congr_left
        intro x hx
        have := ih x (mem_applySlice hx) r1 r2
          (fun y hy => h1 y (List.mem_cons_of_mem _ hy))
          fun y hy => h2 y (List.mem_cons_of_mem _ hy)
        simpa using this

/-- Observation of one element of the outermost axis of an array; used to
separate unequal concrete arrays. -/
def obs (z : NDA α) (i : Nat) : Option α :=
  match z with
  | .dim l =>
    match l[i]? with
    | some (.scalar v) => some v
    | _ => none
  | .scalar _ => none

theorem applyAll_singleton (s : PySlice) (l : List (NDA α)) :
    applyAll [s] (NDA.dim l) = NDA.dim (applySlice s l) := by
  rw [applyAll_cons_dim]
  congr 1
  calc (applySlice s l).map (applyAll []) = (applySlice s l).map id :=
        List.map_congr_left fun x _ => applyAll_nil x
    _ = applySlice s l := List.map_id _

/-- C1 counterexample: on `x = range(10)` with `s1 = (slice(0, None, 2),)`
and `s2 = (slice(1, None, None),)`, sequential application gives
`[2, 4, 6, 8]` but the combined slice is `slice(1, None, 2)`, which selects
`[1, 3, 5, 7, 9]`: the law fails for a non-unit step in the first tuple. -/
theorem C1_counterexample :
    applyAll [(⟨some 1, none, none⟩ : PySlice)]
        (applyAll [(⟨some 0, none, some 2⟩ : PySlice)]
          (NDA.dim ((List.range 10).map fun i => NDA.scalar (i : Int))))
      ≠ applyAll ((combine_slices ([(⟨some 0, none, some 2⟩ : PySlice)].map SI.slice)
            ([(⟨some 1, none, none⟩ : PySlice)].map SI.slice)).map outSlice)
          (NDA.dim ((List.range 10).map fun i => NDA.scalar (i : Int))) := by
  intro h
  rw [show (combine_slices ([(⟨some 0, none, some 2⟩ : PySlice)].map SI.slice)
        ([(⟨some 1, none, none⟩ : PySlice)].map SI.slice)).map outSlice
      = [(⟨some 1, none, some 2⟩ : PySlice)] from rfl,
    applyAll_singleton, applyAll_singleton, applyAll_singleton] at h
  exact absurd (congrArg (fun z => obs z 0) h) (by decide)

/-- Witness for the amended C1 at concrete normalized inputs. -/
theorem C1_composition_witness :
    applyAll [(⟨some 1, none, some 1⟩ : PySlice)]
        (applyAll [(⟨some 0, some 8, some 1⟩ : PySlice)]
          (NDA.dim [NDA.scalar (0 : Int), NDA.scalar 1, NDA.scalar 2]))
      = applyAll ((combine_slices ([(⟨some 0, some 8, some 1⟩ : PySlice)].map SI.slice)
            ([(⟨some 1, none, some 1⟩ : PySlice)].map SI.slice)).map outSlice)
          (NDA.dim [NDA.scalar (0 : Int), NDA.scalar 1, NDA.scalar 2]) :=
  C1_composition _ _ _ (by decide) (by decide)
